import Mathlib

/-!
Verification of the snmp2 helper layer: a shallow embedding of the
helper modules (oid, value, session, client, net) together with proofs
of the specified properties.

Strings are embedded as `List Char`; the texts that matter here (OID
dotted-decimal notation, MAC notation) are ASCII, where Rust byte
positions and lengths coincide with character positions and lengths.
Machine integers (u32/u64/i64) are embedded as `Nat`/`Int` with the
relevant bounds stated explicitly where overflow or truncation matters.
-/

namespace Snmp2

/-! ## Decimal rendering of one arc

Embeds the rendering of one unsigned arc in Rust decimal notation
(`u32` display).  A fuel parameter makes the recursion structural; the
fuel `n + 1` always suffices since the quotient chain `n, n / 10, ...`
reaches a value below 10 in at most `n` steps. -/

def natDigitsAux : Nat → Nat → List Char
  | 0, _ => []
  | fuel + 1, n =>
    if n < 10 then [Nat.digitChar n]
    else natDigitsAux fuel (n / 10) ++ [Nat.digitChar (n % 10)]

def natDigits (n : Nat) : List Char := natDigitsAux (n + 1) n

/-- Modelled from the spec: the textual form of an `Oid` (`Oid::to_string`
is not under src/): arcs rendered in decimal and joined by the separator
character, no other characters. -/
def oidText : List Nat → List Char
  | [] => []
  | [n] => natDigits n
  | n :: m :: rest => natDigits n ++ '.' :: oidText (m :: rest)

/-! ## src/helpers/session.rs -/

/-- `is_subtree` from src/helpers/session.rs: candidate equals base, or is
strictly longer, starts with base and the next character is the separator.
Rust indexes bytes; on the ASCII texts involved bytes and characters agree. -/
def is_subtree (base candidate : List Char) : Bool :=
  if candidate == base then true
  else if candidate.length > base.length then
    base.isPrefixOf candidate && candidate[base.length]? == some '.'
  else false

/-! ## src/helpers/value.rs -/

/-- `OwnedValue` from src/helpers/value.rs.  `Integer` carries an i64
(`Int` with the i64 range assumed where it matters), the 32-bit variants
carry u32 values, `Counter64` a u64 value; byte payloads are lists of u8. -/
inductive OwnedValue where
  | Boolean (b : Bool)
  | Null
  | Integer (i : Int)
  | OctetString (bytes : List Nat)
  | ObjectIdentifier (text : List Char)
  | IpAddress (octets : List Nat)
  | Counter32 (c : Nat)
  | Unsigned32 (u : Nat)
  | Timeticks (t : Nat)
  | Opaque (bytes : List Nat)
  | Counter64 (c : Nat)
  | EndOfMibView
  | NoSuchObject
  | NoSuchInstance
deriving DecidableEq

/-- `OwnedValue::as_i64`: `i64::try_from(u64)` succeeds exactly below `2 ^ 63`. -/
def OwnedValue.as_i64 : OwnedValue → Option Int
  | .Integer i => some i
  | .Counter32 c => some (Int.ofNat c)
  | .Unsigned32 u => some (Int.ofNat u)
  | .Timeticks t => some (Int.ofNat t)
  | .Counter64 c => if c < 2 ^ 63 then some (Int.ofNat c) else none
  | _ => none

/-- `OwnedValue::as_u64`: `u64::try_from(i64)` succeeds exactly for
non-negative values (every non-negative i64 fits in u64). -/
def OwnedValue.as_u64 : OwnedValue → Option Nat
  | .Counter32 c => some c
  | .Unsigned32 u => some u
  | .Timeticks t => some t
  | .Counter64 c => some c
  | .Integer i => if 0 ≤ i then some i.toNat else none
  | _ => none

/-- `OwnedValue::is_error`: the three terminal markers. -/
def OwnedValue.is_error : OwnedValue → Bool
  | .EndOfMibView => true
  | .NoSuchObject => true
  | .NoSuchInstance => true
  | _ => false

namespace SessionExt

/-- `SessionExt::walk_values` from src/helpers/session.rs, driven by the
trace of successive get-next responses (one list entry per loop
iteration; `none` models a response with no varbind pair).  The loop
breaks on the first out-of-subtree pair, the first terminal-marker
value, or the first empty response, and otherwise appends the pair. -/
def walk_values (base : List Nat) : List (Option (List Nat × OwnedValue)) → List (List Nat × OwnedValue)
  | [] => []
  | none :: _ => []
  | some (nextOid, v) :: rest =>
    if is_subtree (oidText base) (oidText nextOid) then
      if v.is_error then []
      else (nextOid, v) :: walk_values base rest
    else []

/-- A get-next response that the walk keeps going on: a pair whose OID
stays in the subtree and whose value is not a terminal marker. -/
def goodResp (base : List Nat) : Option (List Nat × OwnedValue) → Bool
  | some (o, v) => is_subtree (oidText base) (oidText o) && !v.is_error
  | none => false

end SessionExt

/-! ## src/helpers/oid.rs -/

/-- Rust `str::split('.')`: the list of separator-free pieces; an empty
input yields one empty piece, adjacent separators yield empty pieces. -/
def splitDots : List Char → List (List Char)
  | [] => [[]]
  | c :: rest =>
    if c == '.' then [] :: splitDots rest
    else
      match splitDots rest with
      | [] => [[c]]
      | r :: rs => (c :: r) :: rs

/-- The sign handling of Rust `u32::from_str`: one leading plus sign is
skipped; a minus sign is not accepted for an unsigned type. -/
def stripSign (s : List Char) : List Char :=
  match s with
  | [] => []
  | c :: rest => if c == '+' then rest else c :: rest

def charVal (c : Char) : Nat := c.toNat - 48

/-- Rust `str::parse::<u32>`: after the optional sign the input must be a
non-empty run of decimal digits whose value fits in 32 bits; any error
kind (empty, invalid digit, overflow) is collapsed to `none`, as
`parse_oid` maps every error to `Error::AsnParse`. -/
def parseU32 (s : List Char) : Option Nat :=
  let ds := stripSign s
  if ds.isEmpty then none
  else if ds.all Char.isDigit then
    let v := ds.foldl (fun acc c => acc * 10 + charVal c) 0
    if v < 2 ^ 32 then some v else none
  else none

/-- The `collect::<Result<Vec<_>>>` step of `parse_oid`: the first failing
component fails the whole parse. -/
def parseParts : List (List Char) → Option (List Nat)
  | [] => some []
  | p :: rest =>
    match parseU32 p with
    | none => none
    | some v =>
      match parseParts rest with
      | none => none
      | some vs => some (v :: vs)

/-- Modelled from the spec: `Oid::from(&[u32])` (not under src/) builds an
`OidPath` from the arc list; an `OidPath` is a non-empty arc sequence, so
an empty list is rejected. -/
def oidFrom (arcs : List Nat) : Option (List Nat) :=
  if arcs.isEmpty then none else some arcs

/-- `parse_oid` from src/helpers/oid.rs.  Rust
`trim_start_matches('.')` removes every leading separator (not just
one), then the input is split on the separator and each component is
parsed as a u32. -/
def parse_oid (s : List Char) : Option (List Nat) :=
  let stripped := s.dropWhile (fun c => c == '.')
  match parseParts (splitDots stripped) with
  | none => none
  | some arcs => oidFrom arcs

/-! ## src/helpers/client.rs

The retry/fallback skeleton of `SnmpClient`.  A session's behaviour is
abstracted as an oracle from the attempt number to that attempt's
outcome (`none` models the operation returning an error, which the loop
swallows; `some r` models `Ok(r)`).  A protocol version whose connection
attempt fails is modelled as `none` at the `Option` oracle level, which
the code skips via `if let Ok(session) = ...`. -/

inductive ClientErr where
  | send
deriving DecidableEq

/-- Loop body shared by every operation: scan attempts `start`,
`start + 1`, ... while `rem` budget remains, returning the first usable
result (`Ok` and usable) and `none` once the budget is exhausted.  The
backoff sleeps do not affect the returned value and are not modelled. -/
def firstUsableFrom {α : Type} (usable : α → Bool) (f : Nat → Option α) : Nat → Nat → Option α
  | _, 0 => none
  | start, rem + 1 =>
    match f start with
    | some v => if usable v then some v else firstUsableFrom usable f (start + 1) rem
    | none => firstUsableFrom usable f (start + 1) rem

/-- The `for attempt in 0..self.retries` loop of src/helpers/client.rs. -/
def firstUsable {α : Type} (usable : α → Bool) (f : Nat → Option α) (retries : Nat) : Option α :=
  firstUsableFrom usable f 0 retries

/-- Usability test of `SnmpClient::get`: `!val.is_empty()`. -/
def strUsable (s : List Char) : Bool := !s.isEmpty

/-- Usability test of `SnmpClient::get_value`:
`!val.is_error() && val != OwnedValue::Null`. -/
def valUsable (v : OwnedValue) : Bool := !v.is_error && !(v == OwnedValue.Null)

/-- Usability test of the walk operations: `!results.is_empty()`. -/
def listUsable {β : Type} (l : List β) : Bool := !l.isEmpty

namespace SnmpClient

/-- `SnmpClient::connect`: try v2c, fall back to v1, and only when both
fail return `Error::Send`. -/
def connect {σ : Type} (v2c v1 : Option σ) : Except ClientErr σ :=
  match v2c with
  | some s => Except.ok s
  | none =>
    match v1 with
    | some s => Except.ok s
    | none => Except.error ClientErr.send

/-- `SnmpClient::get`: v2c retry loop, then v1 retry loop, then the empty
string; a failed connection (`none` oracle) skips that version's loop. -/
def get (retries : Nat) (v2c v1 : Option (Nat → Option (List Char))) : Except ClientErr (List Char) :=
  match v2c.bind (fun f => firstUsable strUsable f retries) with
  | some v => Except.ok v
  | none =>
    match v1.bind (fun f => firstUsable strUsable f retries) with
    | some v => Except.ok v
    | none => Except.ok []

/-- `SnmpClient::get_value`: same skeleton, defaulting to `Null`. -/
def get_value (retries : Nat) (v2c v1 : Option (Nat → Option OwnedValue)) : Except ClientErr OwnedValue :=
  match v2c.bind (fun f => firstUsable valUsable f retries) with
  | some v => Except.ok v
  | none =>
    match v1.bind (fun f => firstUsable valUsable f retries) with
    | some v => Except.ok v
    | none => Except.ok OwnedValue.Null

/-- `SnmpClient::walk`: same skeleton over string lists, defaulting to the
empty list. -/
def walk (retries : Nat) (v2c v1 : Option (Nat → Option (List (List Char)))) : Except ClientErr (List (List Char)) :=
  match v2c.bind (fun f => firstUsable listUsable f retries) with
  | some v => Except.ok v
  | none =>
    match v1.bind (fun f => firstUsable listUsable f retries) with
    | some v => Except.ok v
    | none => Except.ok []

/-- `SnmpClient::walk_bytes`: same skeleton over byte-vector lists. -/
def walk_bytes (retries : Nat) (v2c v1 : Option (Nat → Option (List (List Nat)))) : Except ClientErr (List (List Nat)) :=
  match v2c.bind (fun f => firstUsable listUsable f retries) with
  | some v => Except.ok v
  | none =>
    match v1.bind (fun f => firstUsable listUsable f retries) with
    | some v => Except.ok v
    | none => Except.ok []

/-- `SnmpClient::walk_values`: same skeleton over (OID, value) pair lists. -/
def walk_values (retries : Nat) (v2c v1 : Option (Nat → Option (List (List Nat × OwnedValue)))) : Except ClientErr (List (List Nat × OwnedValue)) :=
  match v2c.bind (fun f => firstUsable listUsable f retries) with
  | some v => Except.ok v
  | none =>
    match v1.bind (fun f => firstUsable listUsable f retries) with
    | some v => Except.ok v
    | none => Except.ok []

end SnmpClient

/-- `SnmpClient::backoff_duration` (seconds): `(1u64 << attempt).min(cap)`.
With overflow checks off Rust masks the u64 shift amount to `attempt % 64`;
the shifted value then always fits in u64 (debug builds would panic for
`attempt ≥ 64` instead — either way the unmasked power is not computed). -/
def backoff_duration (max_backoff_secs : Nat) (attempt : Nat) : Nat :=
  Nat.min (1 <<< (attempt % 64)) max_backoff_secs

/-! ## src/helpers/net.rs -/

/-- Two lowercase hex digits of one byte (Rust `format!("{:02x}", b)`);
the inputs are u8 values, hence below 256. -/
def byteHex (b : Nat) : List Char := [Nat.digitChar (b / 16 % 16), Nat.digitChar (b % 16)]

/-- Rust `Vec::join` with a one-character separator. -/
def joinSep (sep : Char) : List (List Char) → List Char
  | [] => []
  | [p] => p
  | p :: q :: rest => p ++ sep :: joinSep sep (q :: rest)

/-- `format_mac` from src/helpers/net.rs: colon-joined lowercase hex. -/
def format_mac (bytes : List Nat) : List Char :=
  if bytes.isEmpty then [] else joinSep ':' (bytes.map byteHex)

/-- ASCII members of Rust `char::is_whitespace` (used by `str::trim`). -/
def asciiWhite (c : Char) : Bool :=
  c == ' ' || c == '\t' || c == '\n' || c == '\x0b' || c == '\x0c' || c == '\r'

/-- Rust `str::trim` on ASCII text. -/
def trimChars (s : List Char) : List Char :=
  ((s.dropWhile asciiWhite).reverse.dropWhile asciiWhite).reverse

/-- Rust `char::to_lowercase` restricted to ASCII (the only case reachable
from the ASCII inputs considered here). -/
def asciiLower (c : Char) : Char :=
  if 'A' ≤ c ∧ c ≤ 'Z' then Char.ofNat (c.toNat + 32) else c

/-- Rust `char::is_ascii_hexdigit`. -/
def isHexDigitChar (c : Char) : Bool :=
  c.isDigit || (97 ≤ c.toNat && c.toNat ≤ 102) || (65 ≤ c.toNat && c.toNat ≤ 70)

/-- Removal of one leading `0x` marker (case-sensitive, at most once). -/
def strip0x (s : List Char) : List Char :=
  match s with
  | '0' :: 'x' :: rest => rest
  | _ => s

/-- Rust `slice::chunks(2)`. -/
def chunk2 : List Char → List (List Char)
  | [] => []
  | [c] => [[c]]
  | a :: b :: rest => [a, b] :: chunk2 rest

/-- The string branch of `parse_mac` (case 2 in src/helpers/net.rs):
UTF-8 decoding, trimming, then the colon form, the dash form, and the
12-hex-digit form in that order.  The UTF-8 step is modelled for ASCII
inputs, where decoding is the identity; on inputs with a byte at or
above 128 this model declines (the theorems about this branch therefore
restrict to ASCII inputs). -/
def parseMacStr (bytes : List Nat) : Option (List Char) :=
  if bytes.all (fun b => b < 128) then
    let s := trimChars (bytes.map (fun b => Char.ofNat b))
    if s.length == 17 && s.count ':' == 5 then
      some (s.map asciiLower)
    else if s.length == 17 && s.count '-' == 5 then
      some ((s.map (fun c => if c == '-' then ':' else c)).map asciiLower)
    else
      let hex := strip0x s
      if hex.length == 12 && hex.all isHexDigitChar then
        some ((joinSep ':' (chunk2 hex)).map asciiLower)
      else none
  else none

/-- `parse_mac` from src/helpers/net.rs: raw 6-byte case when some byte is
non-ASCII, then the string branch, then the unconditional 6-byte case. -/
def parse_mac (bytes : List Nat) : Option (List Char) :=
  if bytes.length == 6 && !bytes.all (fun b => b < 128) then
    some (format_mac bytes)
  else
    match parseMacStr bytes with
    | some r => some r
    | none => if bytes.length == 6 then some (format_mac bytes) else none

/-! ## Helper lemmas: decimal rendering -/

theorem natDigitsAux_congr : ∀ f1 f2 n, n < f1 → n < f2 → natDigitsAux f1 n = natDigitsAux f2 n
  | f1 + 1, f2 + 1, n, _, _ => by
    simp only [natDigitsAux]
    split
    · rfl
    · rename_i h
      have hlt : n / 10 < n := Nat.div_lt_self (by omega) (by omega)
      rw [natDigitsAux_congr f1 f2 (n / 10) (by omega) (by omega)]

theorem natDigits_eq (n : Nat) :
    natDigits n = if n < 10 then [Nat.digitChar n] else natDigits (n / 10) ++ [Nat.digitChar (n % 10)] := by
  show natDigitsAux (n + 1) n = _
  simp only [natDigitsAux]
  split
  · rfl
  · rename_i h
    have hlt : n / 10 < n := Nat.div_lt_self (by omega) (by omega)
    rw [natDigitsAux_congr n (n / 10 + 1) (n / 10) (by omega) (by omega)]
    rfl

theorem natDigits_ne_nil (n : Nat) : natDigits n ≠ [] := by
  rw [natDigits_eq]
  split <;> simp

theorem natDigits_isDigit (n : Nat) : ∀ c ∈ natDigits n, c.isDigit = true := by
  induction n using Nat.strong_induction_on with
  | _ n ih =>
    rw [natDigits_eq]
    split
    · rename_i h
      intro c hc
      simp only [List.mem_singleton] at hc
      subst hc
      interval_cases n <;> decide
    · rename_i h
      intro c hc
      rcases List.mem_append.mp hc with h1 | h1
      · exact ih (n / 10) (Nat.div_lt_self (by omega) (by omega)) c h1
      · simp only [List.mem_singleton] at h1
        subst h1
        have : n % 10 < 10 := Nat.mod_lt _ (by omega)
        interval_cases h : n % 10 <;> simp_all <;> decide

theorem dot_not_in_natDigits (n : Nat) : '.' ∉ natDigits n := by
  intro hmem
  have := natDigits_isDigit n '.' hmem
  simp [Char.isDigit] at this

theorem plus_not_head_natDigits (n : Nat) (c : Char) (rest : List Char)
    (h : natDigits n = c :: rest) : (c == '+') = false := by
  have hc : c ∈ natDigits n := by rw [h]; exact List.mem_cons_self _ _
  have := natDigits_isDigit n c hc
  revert this
  simp only [Char.isDigit]
  intro hdig
  by_contra hne
  simp only [beq_eq_false_iff_ne, ne_eq, not_not] at hne
  subst hne
  simp at hdig

theorem digitChar_inj_lt10 : ∀ a < 10, ∀ b < 10, Nat.digitChar a = Nat.digitChar b → a = b := by
  decide

theorem natDigits_inj : ∀ a b : Nat, natDigits a = natDigits b → a = b := by
  intro a
  induction a using Nat.strong_induction_on with
  | _ a ih =>
    intro b h
    rw [natDigits_eq a, natDigits_eq b] at h
    by_cases ha : a < 10 <;> by_cases hb : b < 10
    · simp only [if_pos ha, if_pos hb, List.cons.injEq] at h
      exact digitChar_inj_lt10 a ha b hb h.1
    · exfalso
      simp only [if_pos ha, if_neg hb] at h
      have h1 := congrArg List.length h
      simp only [List.length_append, List.length_singleton] at h1
      have h2 : 0 < (natDigits (b / 10)).length := List.length_pos.mpr (natDigits_ne_nil _)
      omega
    · exfalso
      simp only [if_neg ha, if_pos hb] at h
      have h1 := congrArg List.length h
      simp only [List.length_append, List.length_singleton] at h1
      have h2 : 0 < (natDigits (a / 10)).length := List.length_pos.mpr (natDigits_ne_nil _)
      omega
    · simp only [if_neg ha, if_neg hb] at h
      have hp := List.append_inj' h (by simp)
      have hq : a / 10 = b / 10 :=
        ih (a / 10) (Nat.div_lt_self (by omega) (by omega)) (b / 10) hp.1
      have hr : a % 10 = b % 10 := by
        have := hp.2
        simp only [List.cons.injEq] at this
        exact digitChar_inj_lt10 (a % 10) (Nat.mod_lt _ (by omega)) (b % 10) (Nat.mod_lt _ (by omega)) this.1
      omega

/-! ## Helper lemmas: OID text structure -/

theorem oidText_cons (n : Nat) (t : List Nat) (h : t ≠ []) :
    oidText (n :: t) = natDigits n ++ '.' :: oidText t := by
  cases t with
  | nil => exact absurd rfl h
  | cons m rest => rfl

theorem oidText_ne_nil (x : List Nat) (h : x ≠ []) : oidText x ≠ [] := by
  cases x with
  | nil => exact absurd rfl h
  | cons n t =>
    cases t with
    | nil => exact natDigits_ne_nil n
    | cons m rest =>
      rw [oidText_cons n (m :: rest) (by simp)]
      simp [natDigits_ne_nil n]

/-- Splitting two dot-free blocks at their first following separator. -/
theorem eq_of_dotfree_append :
    ∀ (xs ys u v : List Char), '.' ∉ xs → '.' ∉ ys →
      xs ++ '.' :: u = ys ++ '.' :: v → xs = ys ∧ u = v := by
  intro xs
  induction xs with
  | nil =>
    intro ys u v _ hy h
    cases ys with
    | nil => simpa using h
    | cons b bs =>
      exfalso
      simp only [List.nil_append, List.cons_append, List.cons.injEq] at h
      exact hy (h.1 ▸ List.mem_cons_self _ _)
  | cons a as ih =>
    intro ys u v hx hy h
    cases ys with
    | nil =>
      exfalso
      simp only [List.cons_append, List.nil_append, List.cons.injEq] at h
      exact hx (h.1 ▸ List.mem_cons_self _ _)
    | cons b bs =>
      simp only [List.cons_append, List.cons.injEq] at h
      have hrec := ih bs u v (fun hm => hx (List.mem_cons_of_mem _ hm)) (fun hm => hy (List.mem_cons_of_mem _ hm)) h.2
      exact ⟨by rw [h.1, hrec.1], hrec.2⟩

theorem oidText_inj : ∀ b c : List Nat, b ≠ [] → c ≠ [] → oidText b = oidText c → b = c := by
  intro b
  induction b with
  | nil => intro c hb; exact absurd rfl hb
  | cons b0 bt ih =>
    intro c _ hc h
    cases c with
    | nil => exact absurd rfl hc
    | cons c0 ct =>
      cases hbt : bt with
      | nil =>
        cases hct : ct with
        | nil =>
          subst hbt hct
          rw [show oidText [b0] = natDigits b0 from rfl, show oidText [c0] = natDigits c0 from rfl] at h
          rw [natDigits_inj b0 c0 h]
        | cons c1 cr =>
          exfalso
          subst hbt hct
          rw [show oidText [b0] = natDigits b0 from rfl,
            oidText_cons c0 (c1 :: cr) (by simp)] at h
          have hdot : '.' ∈ natDigits c0 ++ '.' :: oidText (c1 :: cr) := by simp
          rw [← h] at hdot
          exact dot_not_in_natDigits b0 hdot
      | cons b1 br =>
        cases hct : ct with
        | nil =>
          exfalso
          subst hbt hct
          rw [show oidText [c0] = natDigits c0 from rfl,
            oidText_cons b0 (b1 :: br) (by simp)] at h
          have hdot : '.' ∈ natDigits b0 ++ '.' :: oidText (b1 :: br) := by simp
          rw [h] at hdot
          exact dot_not_in_natDigits c0 hdot
        | cons c1 cr =>
          subst hbt hct
          rw [oidText_cons b0 (b1 :: br) (by simp), oidText_cons c0 (c1 :: cr) (by simp)] at h
          have hsplit := eq_of_dotfree_append (natDigits b0) (natDigits c0) _ _
            (dot_not_in_natDigits b0) (dot_not_in_natDigits c0) h
          have h0 : b0 = c0 := natDigits_inj _ _ hsplit.1
          have hrest : b1 :: br = c1 :: cr := ih (c1 :: cr) (by simp) (by simp) hsplit.2
          rw [h0, hrest]

/-- A separator-extension of one OID text is the text of an arc-level
extension: the converse of `oidText_append`. -/
theorem oidText_dot_extend :
    ∀ b c : List Nat, b ≠ [] → c ≠ [] →
      (∃ r, oidText c = oidText b ++ '.' :: r) → ∃ d, d ≠ [] ∧ c = b ++ d := by
  intro b
  induction b with
  | nil => intro c hb; exact absurd rfl hb
  | cons b0 bt ih =>
    intro c _ hc hr
    obtain ⟨r, hr⟩ := hr
    cases c with
    | nil => exact absurd rfl hc
    | cons c0 ct =>
      cases hct : ct with
      | nil =>
        exfalso
        subst hct
        rw [show oidText [c0] = natDigits c0 from rfl] at hr
        have hdot : '.' ∈ oidText (b0 :: bt) ++ '.' :: r := by simp
        rw [← hr] at hdot
        exact dot_not_in_natDigits c0 hdot
      | cons c1 cr =>
        subst hct
        rw [oidText_cons c0 (c1 :: cr) (by simp)] at hr
        cases hbt : bt with
        | nil =>
          subst hbt
          rw [show oidText [b0] = natDigits b0 from rfl] at hr
          have hsplit := eq_of_dotfree_append (natDigits c0) (natDigits b0) _ _
            (dot_not_in_natDigits c0) (dot_not_in_natDigits b0) hr
          have h0 : c0 = b0 := natDigits_inj _ _ hsplit.1
          exact ⟨c1 :: cr, by simp, by rw [h0]; rfl⟩
        | cons b1 br =>
          subst hbt
          rw [oidText_cons b0 (b1 :: br) (by simp), List.append_assoc] at hr
          have hsplit := eq_of_dotfree_append (natDigits c0) (natDigits b0) _ _
            (dot_not_in_natDigits c0) (dot_not_in_natDigits b0) hr
          have h0 : c0 = b0 := natDigits_inj _ _ hsplit.1
          obtain ⟨d, hd, hcd⟩ := ih (c1 :: cr) (by simp) (by simp) ⟨r, hsplit.2⟩
          exact ⟨d, hd, by rw [h0, hcd]; rfl⟩

/-- The text of an arc-level extension is a separator-extension of the text. -/
theorem oidText_append :
    ∀ b d : List Nat, b ≠ [] → d ≠ [] → oidText (b ++ d) = oidText b ++ '.' :: oidText d := by
  intro b
  induction b with
  | nil => intro d hb; exact absurd rfl hb
  | cons b0 bt ih =>
    intro d _ hd
    cases hbt : bt with
    | nil =>
      subst hbt
      rw [show ([b0] ++ d : List Nat) = b0 :: d from rfl, oidText_cons b0 d hd]
      rfl
    | cons b1 br =>
      subst hbt
      rw [show ((b0 :: b1 :: br) ++ d : List Nat) = b0 :: ((b1 :: br) ++ d) from rfl,
        oidText_cons b0 ((b1 :: br) ++ d) (by simp),
        oidText_cons b0 (b1 :: br) (by simp),
        ih d (by simp) hd, List.append_assoc]
      rfl

theorem isPrefixOf_eq (l1 l2 : List Char) : l1.isPrefixOf l2 = true ↔ l1 <+: l2 := by
  exact List.isPrefixOf_iff_prefix

/-- Core of C1: the string test with the separator-boundary check agrees
with arc-wise containment on canonical texts. -/
theorem c1_core (b c : List Nat) (hb : b ≠ []) (hc : c ≠ []) :
    is_subtree (oidText b) (oidText c) = true ↔ (c = b ∨ (b <+: c ∧ b ≠ c)) := by
  constructor
  · intro h
    simp only [is_subtree] at h
    split at h
    · rename_i heq
      left
      exact oidText_inj c b hc hb (by simpa using heq)
    · rename_i hne
      split at h
      · rename_i hlen
        rw [Bool.and_eq_true] at h
        obtain ⟨hpre, hget⟩ := h
        obtain ⟨r, hr⟩ := (isPrefixOf_eq _ _).mp hpre
        rw [beq_iff_eq, ← hr, List.getElem?_append_right (Nat.le_refl _), Nat.sub_self] at hget
        cases r with
        | nil => simp at hget
        | cons a r2 =>
          simp only [List.getElem?_cons_zero, Option.some.injEq] at hget
          subst hget
          obtain ⟨d, hd, hcd⟩ := oidText_dot_extend b c hb hc ⟨r2, hr.symm⟩
          refine Or.inr ⟨⟨d, hcd.symm⟩, ?_⟩
          intro hbc
          rw [← hbc] at hcd
          have := congrArg List.length hcd
          simp only [List.length_append] at this
          have : 0 < d.length := List.length_pos.mpr hd
          omega
      · simp at h
  · intro h
    simp only [is_subtree]
    rcases h with heq | ⟨⟨d, hd⟩, hne⟩
    · subst heq
      simp
    · have hdne : d ≠ [] := by
        rintro rfl
        exact hne (by simpa using hd)
      have htext : oidText c = oidText b ++ '.' :: oidText d := by
        rw [← hd]
        exact oidText_append b d hb hdne
      have hneq : ¬((oidText c == oidText b) = true) := by
        simp only [beq_iff_eq]
        intro hts
        exact hne (oidText_inj b c hb hc hts.symm)
      rw [if_neg hneq, htext]
      have hlen : (oidText b ++ '.' :: oidText d).length > (oidText b).length := by
        simp [List.length_append]
      rw [if_pos hlen, Bool.and_eq_true]
      constructor
      · exact (isPrefixOf_eq _ _).mpr ⟨'.' :: oidText d, rfl⟩
      · rw [List.getElem?_append_right (Nat.le_refl _), Nat.sub_self]
        simp

/-- C1: subtree containment is arc-wise — `is_subtree` on canonical texts
holds iff the candidate equals the base or the base is a proper initial
arc segment of the candidate, and a base with more arcs than the
candidate never contains it. -/
theorem c1_subtree_containment (b c : List Nat) (hb : b ≠ []) (hc : c ≠ []) :
    (is_subtree (oidText b) (oidText c) = true ↔ (c = b ∨ (b <+: c ∧ b ≠ c))) ∧
      (c.length < b.length → is_subtree (oidText b) (oidText c) = false) := by
  have core := c1_core b c hb hc
  refine ⟨core, ?_⟩
  intro hlen
  by_contra hne
  have htrue : is_subtree (oidText b) (oidText c) = true := by
    cases h : is_subtree (oidText b) (oidText c)
    · exact absurd h hne
    · rfl
  rcases core.mp htrue with heq | ⟨⟨d, hd⟩, _⟩
  · subst heq
    omega
  · have := congrArg List.length hd
    simp only [List.length_append] at this
    omega

/-- C1 witness: base 1.3.6.1.4.1.41112 contains 1.3.6.1.4.1.41112.1.4.7. -/
theorem c1_subtree_containment_witness :
    ([1, 3, 6, 1, 4, 1, 41112] : List Nat) ≠ [] ∧
      ([1, 3, 6, 1, 4, 1, 41112, 1, 4, 7] : List Nat) ≠ [] ∧
      is_subtree (oidText [1, 3, 6, 1, 4, 1, 41112]) (oidText [1, 3, 6, 1, 4, 1, 41112, 1, 4, 7]) = true :=
  ⟨by decide, by decide,
    (c1_subtree_containment [1, 3, 6, 1, 4, 1, 41112] [1, 3, 6, 1, 4, 1, 41112, 1, 4, 7]
          (by decide) (by decide)).1.mpr
      (Or.inr ⟨⟨[1, 4, 7], rfl⟩, by decide⟩)⟩

/-- C2: the subtree walk returns exactly the leading run of get-next
responses that are in-subtree, non-terminal pairs — it stops without
including the first out-of-subtree pair, the first terminal-marker pair,
or the first empty response — and on the three-response scenario with
base 1.3.6.1.4.1.41112.1 it returns exactly the first two pairs. -/
theorem c2_walk_values :
    (∀ (base : List Nat) (rs : List (Option (List Nat × OwnedValue))),
        SessionExt.walk_values base rs = (rs.takeWhile (SessionExt.goodResp base)).filterMap id) ∧
      SessionExt.walk_values [1, 3, 6, 1, 4, 1, 41112, 1]
          [some ([1, 3, 6, 1, 4, 1, 41112, 1, 1], OwnedValue.Integer 1),
            some ([1, 3, 6, 1, 4, 1, 41112, 1, 2], OwnedValue.Integer 2),
            some ([1, 3, 6, 1, 4, 1, 41112, 2, 1], OwnedValue.Integer 3)] =
        [([1, 3, 6, 1, 4, 1, 41112, 1, 1], OwnedValue.Integer 1),
          ([1, 3, 6, 1, 4, 1, 41112, 1, 2], OwnedValue.Integer 2)] := by
  constructor
  · intro base rs
    induction rs with
    | nil => rfl
    | cons r rest ih =>
      cases r with
      | none => simp [SessionExt.walk_values, SessionExt.goodResp, List.takeWhile_cons]
      | some p =>
        obtain ⟨o, v⟩ := p
        by_cases hs : is_subtree (oidText base) (oidText o) = true
        · by_cases he : v.is_error = true
          · simp [SessionExt.walk_values, SessionExt.goodResp, List.takeWhile_cons, hs, he]
          · simp only [Bool.not_eq_true] at he
            simp [SessionExt.walk_values, SessionExt.goodResp, List.takeWhile_cons, hs, he, ih]
        · simp only [Bool.not_eq_true] at hs
          simp [SessionExt.walk_values, SessionExt.goodResp, List.takeWhile_cons, hs]
  · decide

/-- C7 counterexample: at attempt 64 the u64 shift wraps (or panics in a
checked build), so the computed backoff is 1 second, not
`min(2 ^ 64, 8) = 8`. -/
theorem c7_backoff_cx : backoff_duration 8 64 = 1 ∧ Nat.min (2 ^ 64) 8 = 8 := by
  constructor
  · rfl
  · decide

/-- C7 (amended): for every attempt `a < 64` (the attempts whose power of
two fits the u64 shift) the backoff is `min(2 ^ a, cap)` seconds; in
particular with cap 8 the attempts 0..4 sleep 1, 2, 4, 8, 8 seconds. -/
theorem c7_backoff_amended :
    (∀ cap a : Nat, a < 64 → backoff_duration cap a = Nat.min (2 ^ a) cap) ∧
      backoff_duration 8 0 = 1 ∧ backoff_duration 8 1 = 2 ∧ backoff_duration 8 2 = 4 ∧
      backoff_duration 8 3 = 8 ∧ backoff_duration 8 4 = 8 := by
  refine ⟨?_, rfl, rfl, rfl, rfl, rfl⟩
  intro cap a ha
  unfold backoff_duration
  rw [Nat.mod_eq_of_lt ha, Nat.shiftLeft_eq, one_mul]

/-- C7 witness: the amended statement applied at attempt 3 with cap 8. -/
theorem c7_backoff_amended_witness : 3 < 64 ∧ backoff_duration 8 3 = Nat.min (2 ^ 3) 8 :=
  ⟨by decide, c7_backoff_amended.1 8 3 (by decide)⟩

/-- C9: `as_i64` is defined exactly for Integer, Counter32, Unsigned32,
Timeticks (widened losslessly) and Counter64 below `2 ^ 63`; `as_u64` is
defined exactly for Counter32, Unsigned32, Timeticks, Counter64 and
non-negative Integer; in particular `Counter64 (2 ^ 64 - 1)` has no
signed form and `Integer (-42)` no unsigned form. -/
theorem c9_numeric_conversions :
    (∀ v : OwnedValue, v.as_i64.isSome = true ↔
        (match v with
          | .Integer _ => True
          | .Counter32 _ => True
          | .Unsigned32 _ => True
          | .Timeticks _ => True
          | .Counter64 c => c < 2 ^ 63
          | _ => False)) ∧
      (∀ i : Int, (OwnedValue.Integer i).as_i64 = some i) ∧
      (∀ c : Nat, (OwnedValue.Counter32 c).as_i64 = some (Int.ofNat c)) ∧
      (∀ u : Nat, (OwnedValue.Unsigned32 u).as_i64 = some (Int.ofNat u)) ∧
      (∀ t : Nat, (OwnedValue.Timeticks t).as_i64 = some (Int.ofNat t)) ∧
      (∀ c : Nat, (OwnedValue.Counter64 c).as_i64 =
        if c < 2 ^ 63 then some (Int.ofNat c) else none) ∧
      (OwnedValue.Counter64 (2 ^ 64 - 1)).as_i64 = none ∧
      (∀ v : OwnedValue, v.as_u64.isSome = true ↔
        (match v with
          | .Counter32 _ => True
          | .Unsigned32 _ => True
          | .Timeticks _ => True
          | .Counter64 _ => True
          | .Integer i => 0 ≤ i
          | _ => False)) ∧
      (∀ c : Nat, (OwnedValue.Counter32 c).as_u64 = some c) ∧
      (∀ u : Nat, (OwnedValue.Unsigned32 u).as_u64 = some u) ∧
      (∀ t : Nat, (OwnedValue.Timeticks t).as_u64 = some t) ∧
      (∀ c : Nat, (OwnedValue.Counter64 c).as_u64 = some c) ∧
      (∀ i : Int, (OwnedValue.Integer i).as_u64 = if 0 ≤ i then some i.toNat else none) ∧
      (OwnedValue.Integer (-42)).as_u64 = none := by
  refine ⟨?_, fun i => rfl, fun c => rfl, fun u => rfl, fun t => rfl, fun c => rfl, ?_, ?_,
    fun c => rfl, fun u => rfl, fun t => rfl, fun c => rfl, fun i => rfl, by decide⟩
  · intro v
    cases v <;> simp [OwnedValue.as_i64]
  · show (if ((2 : Nat) ^ 64 - 1 : Nat) < 2 ^ 63 then some (Int.ofNat (2 ^ 64 - 1)) else none) = none
    rw [if_neg]
    norm_num
  · intro v
    cases v <;> simp [OwnedValue.as_u64]

/-! ## Helper lemmas: the retry loop -/

theorem firstUsableFrom_some {α : Type} (usable : α → Bool) (f : Nat → Option α) :
    ∀ (rem start : Nat) (v : α),
      firstUsableFrom usable f start rem = some v ↔
        ∃ i, i < rem ∧ f (start + i) = some v ∧ usable v = true ∧
          ∀ j, j < i → ∀ w, f (start + j) = some w → usable w = false := by
  intro rem
  induction rem with
  | zero =>
    intro start v
    simp [firstUsableFrom]
  | succ rem ih =>
    intro start v
    rw [show firstUsableFrom usable f start (rem + 1) =
        (match f start with
          | some w => if usable w then some w else firstUsableFrom usable f (start + 1) rem
          | none => firstUsableFrom usable f (start + 1) rem) from rfl]
    cases hf : f start with
    | none =>
      rw [ih (start + 1) v]
      constructor
      · rintro ⟨i, hi, hfi, hu, hmin⟩
        refine ⟨i + 1, by omega, ?_, hu, ?_⟩
        · rw [show start + (i + 1) = start + 1 + i by omega]
          exact hfi
        · intro j hj w hw
          cases j with
          | zero =>
            rw [Nat.add_zero, hf] at hw
            cases hw
          | succ j2 =>
            refine hmin j2 (by omega) w ?_
            rw [show start + 1 + j2 = start + (j2 + 1) by omega]
            exact hw
      · rintro ⟨i, hi, hfi, hu, hmin⟩
        cases i with
        | zero =>
          rw [Nat.add_zero, hf] at hfi
          cases hfi
        | succ i2 =>
          refine ⟨i2, by omega, ?_, hu, ?_⟩
          · rw [show start + 1 + i2 = start + (i2 + 1) by omega]
            exact hfi
          · intro j hj w hw
            refine hmin (j + 1) (by omega) w ?_
            rw [show start + (j + 1) = start + 1 + j by omega]
            exact hw
    | some w0 =>
      dsimp only
      by_cases hu0 : usable w0 = true
      · rw [if_pos hu0]
        constructor
        · intro h
          refine ⟨0, by omega, ?_, ?_, ?_⟩
          · rw [Nat.add_zero, hf]
            exact h
          · injection h with h2
            rw [← h2]
            exact hu0
          · intro j hj
            omega
        · rintro ⟨i, hi, hfi, hu, hmin⟩
          cases i with
          | zero =>
            rw [Nat.add_zero, hf] at hfi
            exact hfi
          | succ i2 =>
            exfalso
            have := hmin 0 (by omega) w0 (by rw [Nat.add_zero]; exact hf)
            rw [hu0] at this
            cases this
      · have hu0f : usable w0 = false := by
          simpa using hu0
        rw [if_neg hu0]
        rw [ih (start + 1) v]
        constructor
        · rintro ⟨i, hi, hfi, hu, hmin⟩
          refine ⟨i + 1, by omega, ?_, hu, ?_⟩
          · rw [show start + (i + 1) = start + 1 + i by omega]
            exact hfi
          · intro j hj w hw
            cases j with
            | zero =>
              rw [Nat.add_zero, hf] at hw
              injection hw with hw2
              rw [← hw2]
              exact hu0f
            | succ j2 =>
              refine hmin j2 (by omega) w ?_
              rw [show start + 1 + j2 = start + (j2 + 1) by omega]
              exact hw
        · rintro ⟨i, hi, hfi, hu, hmin⟩
          cases i with
          | zero =>
            exfalso
            rw [Nat.add_zero, hf] at hfi
            injection hfi with hfi2
            rw [hfi2, hu] at hu0f
            cases hu0f
          | succ i2 =>
            refine ⟨i2, by omega, ?_, hu, ?_⟩
            · rw [show start + 1 + i2 = start + (i2 + 1) by omega]
              exact hfi
            · intro j hj w hw
              refine hmin (j + 1) (by omega) w ?_
              rw [show start + (j + 1) = start + 1 + j by omega]
              exact hw

theorem firstUsableFrom_none {α : Type} (usable : α → Bool) (f : Nat → Option α) :
    ∀ (rem start : Nat),
      firstUsableFrom usable f start rem = none ↔
        ∀ j, j < rem → ∀ w, f (start + j) = some w → usable w = false := by
  intro rem
  induction rem with
  | zero =>
    intro start
    simp [firstUsableFrom]
  | succ rem ih =>
    intro start
    rw [show firstUsableFrom usable f start (rem + 1) =
        (match f start with
          | some w => if usable w then some w else firstUsableFrom usable f (start + 1) rem
          | none => firstUsableFrom usable f (start + 1) rem) from rfl]
    cases hf : f start with
    | none =>
      rw [ih (start + 1)]
      constructor
      · intro h j hj w hw
        cases j with
        | zero =>
          rw [Nat.add_zero, hf] at hw
          cases hw
        | succ j2 =>
          refine h j2 (by omega) w ?_
          rw [show start + 1 + j2 = start + (j2 + 1) by omega]
          exact hw
      · intro h j hj w hw
        refine h (j + 1) (by omega) w ?_
        rw [show start + (j + 1) = start + 1 + j by omega]
        exact hw
    | some w0 =>
      dsimp only
      by_cases hu0 : usable w0 = true
      · rw [if_pos hu0]
        constructor
        · intro h
          cases h
        · intro h
          exfalso
          have := h 0 (by omega) w0 (by rw [Nat.add_zero]; exact hf)
          rw [hu0] at this
          cases this
      · have hu0f : usable w0 = false := by
          simpa using hu0
        rw [if_neg hu0]
        rw [ih (start + 1)]
        constructor
        · intro h j hj w hw
          cases j with
          | zero =>
            rw [Nat.add_zero, hf] at hw
            injection hw with hw2
            rw [← hw2]
            exact hu0f
          | succ j2 =>
            refine h j2 (by omega) w ?_
            rw [show start + 1 + j2 = start + (j2 + 1) by omega]
            exact hw
        · intro h j hj w hw
          refine h (j + 1) (by omega) w ?_
          rw [show start + (j + 1) = start + 1 + j by omega]
          exact hw

theorem firstUsable_some {α : Type} (usable : α → Bool) (f : Nat → Option α) (retries : Nat) (v : α) :
    firstUsable usable f retries = some v ↔
      ∃ i, i < retries ∧ f i = some v ∧ usable v = true ∧
        ∀ j, j < i → ∀ w, f j = some w → usable w = false := by
  rw [firstUsable, firstUsableFrom_some]
  constructor <;>
    rintro ⟨i, hi, hfi, hu, hmin⟩ <;>
    exact ⟨i, hi, by simpa using hfi, hu, fun j hj w hw => hmin j hj w (by simpa using hw)⟩

theorem firstUsable_none {α : Type} (usable : α → Bool) (f : Nat → Option α) (retries : Nat) :
    firstUsable usable f retries = none ↔
      ∀ j, j < retries → ∀ w, f j = some w → usable w = false := by
  rw [firstUsable, firstUsableFrom_none]
  constructor <;>
    intro h j hj w hw <;>
    exact h j hj w (by simpa using hw)

/-- C4 counterexample: in `get_value` a first-attempt `EndOfMibView`
(non-Null, present) is not returned immediately; the loop retries and
returns the second attempt's `Integer 7` instead, so "usable iff
non-empty (≠ Null/absent)" fails for the single-value operations. -/
theorem c4_retry_usability_cx :
    SnmpClient.get_value 2
        (some (fun i => if i == 0 then some OwnedValue.EndOfMibView else some (OwnedValue.Integer 7)))
        none =
      Except.ok (OwnedValue.Integer 7) ∧
      (fun i : Nat => if i == 0 then some OwnedValue.EndOfMibView else some (OwnedValue.Integer 7)) 0 =
        some OwnedValue.EndOfMibView ∧
      OwnedValue.EndOfMibView ≠ OwnedValue.Null :=
  ⟨rfl, rfl, by decide⟩

/-- C4 (amended): the retry loop returns an attempt's result immediately
iff it is the first usable one, and exhausts the budget iff no attempt is
usable; usable means a non-empty string for `get`, a non-empty pair list
for the walks, and — for `get_value` — a value that is neither Null nor a
terminal marker (EndOfMibView/NoSuchObject/NoSuchInstance). -/
theorem c4_retry_usability :
    (∀ (α : Type) (usable : α → Bool) (f : Nat → Option α) (retries : Nat) (v : α),
        firstUsable usable f retries = some v ↔
          ∃ i, i < retries ∧ f i = some v ∧ usable v = true ∧
            ∀ j, j < i → ∀ w, f j = some w → usable w = false) ∧
      (∀ (α : Type) (usable : α → Bool) (f : Nat → Option α) (retries : Nat),
        firstUsable usable f retries = none ↔
          ∀ j, j < retries → ∀ w, f j = some w → usable w = false) ∧
      (∀ s : List Char, strUsable s = true ↔ s ≠ []) ∧
      (∀ l : List (List Nat × OwnedValue), listUsable l = true ↔ l ≠ []) ∧
      (∀ v : OwnedValue, valUsable v = true ↔ (v.is_error = false ∧ v ≠ OwnedValue.Null)) ∧
      valUsable OwnedValue.Null = false ∧
      valUsable OwnedValue.EndOfMibView = false ∧
      valUsable OwnedValue.NoSuchObject = false ∧
      valUsable OwnedValue.NoSuchInstance = false := by
  refine ⟨fun α => firstUsable_some, fun α => firstUsable_none, ?_, ?_, ?_, rfl, rfl, rfl, rfl⟩
  · intro s
    simp [strUsable]
  · intro l
    simp [listUsable]
  · intro v
    simp [valUsable, and_comm]

/-- C3 counterexample: with both connection attempts failing, the
top-level operations return empty/default successes, not a connection
error. -/
theorem c3_connect_failure_cx :
    SnmpClient.get 3 none none = Except.ok [] ∧
      SnmpClient.get_value 3 none none = Except.ok OwnedValue.Null ∧
      SnmpClient.walk 3 none none = Except.ok [] ∧
      SnmpClient.walk_bytes 3 none none = Except.ok [] ∧
      SnmpClient.walk_values 3 none none = Except.ok [] :=
  ⟨rfl, rfl, rfl, rfl, rfl⟩

/-- C3 (amended): when the session cannot be established on either
protocol version, every top-level client operation still returns its
empty/default success value (empty string, Null, empty sequence); only
the standalone `connect` surfaces `Error::Send`, succeeding whenever
either version's connection attempt succeeds. -/
theorem c3_connect_failure_amended :
    (∀ retries : Nat, SnmpClient.get retries none none = Except.ok []) ∧
      (∀ retries : Nat, SnmpClient.get_value retries none none = Except.ok OwnedValue.Null) ∧
      (∀ retries : Nat, SnmpClient.walk retries none none = Except.ok []) ∧
      (∀ retries : Nat, SnmpClient.walk_bytes retries none none = Except.ok []) ∧
      (∀ retries : Nat, SnmpClient.walk_values retries none none = Except.ok []) ∧
      @SnmpClient.connect Unit none none = Except.error ClientErr.send ∧
      (∀ (σ : Type) (s : σ) (o : Option σ), SnmpClient.connect (some s) o = Except.ok s) ∧
      (∀ (σ : Type) (s : σ), SnmpClient.connect none (some s) = Except.ok s) :=
  ⟨fun _ => rfl, fun _ => rfl, fun _ => rfl, fun _ => rfl, fun _ => rfl, rfl,
    fun _ _ _ => rfl, fun _ _ => rfl⟩

/-- C10: every top-level client operation is infallible — for every retry
budget and every combination of connection and per-attempt outcomes it
returns an `ok` value — while the standalone `connect` can return an
error (exactly on double connection failure). -/
theorem c10_client_infallible :
    (∀ (retries : Nat) (v2c v1 : Option (Nat → Option (List Char))),
        ∃ s, SnmpClient.get retries v2c v1 = Except.ok s) ∧
      (∀ (retries : Nat) (v2c v1 : Option (Nat → Option OwnedValue)),
        ∃ s, SnmpClient.get_value retries v2c v1 = Except.ok s) ∧
      (∀ (retries : Nat) (v2c v1 : Option (Nat → Option (List (List Char)))),
        ∃ s, SnmpClient.walk retries v2c v1 = Except.ok s) ∧
      (∀ (retries : Nat) (v2c v1 : Option (Nat → Option (List (List Nat)))),
        ∃ s, SnmpClient.walk_bytes retries v2c v1 = Except.ok s) ∧
      (∀ (retries : Nat) (v2c v1 : Option (Nat → Option (List (List Nat × OwnedValue)))),
        ∃ s, SnmpClient.walk_values retries v2c v1 = Except.ok s) ∧
      @SnmpClient.connect Unit none none = Except.error ClientErr.send := by
  refine ⟨?_, ?_, ?_, ?_, ?_, rfl⟩
  · intro retries v2c v1
    rw [show SnmpClient.get retries v2c v1 =
        (match v2c.bind (fun f => firstUsable strUsable f retries) with
          | some v => Except.ok v
          | none =>
            match v1.bind (fun f => firstUsable strUsable f retries) with
            | some v => Except.ok v
            | none => Except.ok []) from rfl]
    cases v2c.bind (fun f => firstUsable strUsable f retries) with
    | some v => exact ⟨v, rfl⟩
    | none =>
      cases v1.bind (fun f => firstUsable strUsable f retries) with
      | some v => exact ⟨v, rfl⟩
      | none => exact ⟨[], rfl⟩
  · intro retries v2c v1
    rw [show SnmpClient.get_value retries v2c v1 =
        (match v2c.bind (fun f => firstUsable valUsable f retries) with
          | some v => Except.ok v
          | none =>
            match v1.bind (fun f => firstUsable valUsable f retries) with
            | some v => Except.ok v
            | none => Except.ok OwnedValue.Null) from rfl]
    cases v2c.bind (fun f => firstUsable valUsable f retries) with
    | some v => exact ⟨v, rfl⟩
    | none =>
      cases v1.bind (fun f => firstUsable valUsable f retries) with
      | some v => exact ⟨v, rfl⟩
      | none => exact ⟨OwnedValue.Null, rfl⟩
  · intro retries v2c v1
    rw [show SnmpClient.walk retries v2c v1 =
        (match v2c.bind (fun f => firstUsable listUsable f retries) with
          | some v => Except.ok v
          | none =>
            match v1.bind (fun f => firstUsable listUsable f retries) with
            | some v => Except.ok v
            | none => Except.ok []) from rfl]
    cases v2c.bind (fun f => firstUsable listUsable f retries) with
    | some v => exact ⟨v, rfl⟩
    | none =>
      cases v1.bind (fun f => firstUsable listUsable f retries) with
      | some v => exact ⟨v, rfl⟩
      | none => exact ⟨[], rfl⟩
  · intro retries v2c v1
    rw [show SnmpClient.walk_bytes retries v2c v1 =
        (match v2c.bind (fun f => firstUsable listUsable f retries) with
          | some v => Except.ok v
          | none =>
            match v1.bind (fun f => firstUsable listUsable f retries) with
            | some v => Except.ok v
            | none => Except.ok []) from rfl]
    cases v2c.bind (fun f => firstUsable listUsable f retries) with
    | some v => exact ⟨v, rfl⟩
    | none =>
      cases v1.bind (fun f => firstUsable listUsable f retries) with
      | some v => exact ⟨v, rfl⟩
      | none => exact ⟨[], rfl⟩
  · intro retries v2c v1
    rw [show SnmpClient.walk_values retries v2c v1 =
        (match v2c.bind (fun f => firstUsable listUsable f retries) with
          | some v => Except.ok v
          | none =>
            match v1.bind (fun f => firstUsable listUsable f retries) with
            | some v => Except.ok v
            | none => Except.ok []) from rfl]
    cases v2c.bind (fun f => firstUsable listUsable f retries) with
    | some v => exact ⟨v, rfl⟩
    | none =>
      cases v1.bind (fun f => firstUsable listUsable f retries) with
      | some v => exact ⟨v, rfl⟩
      | none => exact ⟨[], rfl⟩

/-! ## Helper lemmas: parsing dotted-decimal text -/

theorem charVal_digitChar : ∀ m < 10, charVal (Nat.digitChar m) = m := by
  decide

theorem natDigits_foldl (n : Nat) : ∀ acc : Nat,
    (natDigits n).foldl (fun acc c => acc * 10 + charVal c) acc =
      acc * 10 ^ (natDigits n).length + n := by
  induction n using Nat.strong_induction_on with
  | _ n ih =>
    intro acc
    rw [natDigits_eq]
    split
    · rename_i h
      simp only [List.foldl_cons, List.foldl_nil, List.length_singleton, pow_one]
      rw [charVal_digitChar n h]
    · rename_i h
      rw [List.foldl_append, ih (n / 10) (Nat.div_lt_self (by omega) (by omega)) acc]
      simp only [List.foldl_cons, List.foldl_nil, List.length_append, List.length_singleton]
      rw [charVal_digitChar (n % 10) (Nat.mod_lt _ (by omega)), pow_succ, Nat.add_mul,
        Nat.mul_assoc, Nat.add_assoc]
      omega

theorem parseU32_natDigits (n : Nat) (h : n < 2 ^ 32) : parseU32 (natDigits n) = some n := by
  have hne := natDigits_ne_nil n
  have hstrip : stripSign (natDigits n) = natDigits n := by
    cases hnd : natDigits n with
    | nil => rfl
    | cons c cs =>
      have hplus := plus_not_head_natDigits n c cs hnd
      simp [stripSign, hplus]
  have h1 : (natDigits n).isEmpty = false := by
    cases hnd : natDigits n with
    | nil => exact absurd hnd hne
    | cons c cs => rfl
  have h2 : (natDigits n).all Char.isDigit = true :=
    List.all_eq_true.mpr (fun c hc => natDigits_isDigit n c hc)
  simp only [parseU32, hstrip, h1, h2, Bool.false_eq_true, if_false, if_true]
  rw [natDigits_foldl n 0]
  simp only [Nat.zero_mul, Nat.zero_add]
  rw [if_pos h]

theorem splitDots_ne_nil : ∀ s : List Char, splitDots s ≠ [] := by
  intro s
  cases s with
  | nil => simp [splitDots]
  | cons c rest =>
    simp only [splitDots]
    split
    · simp
    · split <;> simp

theorem splitDots_dotfree : ∀ xs : List Char, '.' ∉ xs → splitDots xs = [xs] := by
  intro xs
  induction xs with
  | nil => intro _; rfl
  | cons c cs ih =>
    intro h
    have hc : ¬(c == '.') = true := by
      simp only [beq_iff_eq]
      intro hcd
      exact h (hcd ▸ List.mem_cons_self _ _)
    have hcs : '.' ∉ cs := fun hm => h (List.mem_cons_of_mem _ hm)
    simp only [splitDots, if_neg hc, ih hcs]

theorem splitDots_append : ∀ xs ys : List Char, '.' ∉ xs →
    splitDots (xs ++ '.' :: ys) = xs :: splitDots ys := by
  intro xs
  induction xs with
  | nil =>
    intro ys _
    simp [splitDots]
  | cons c cs ih =>
    intro ys h
    have hc : ¬(c == '.') = true := by
      simp only [beq_iff_eq]
      intro hcd
      exact h (hcd ▸ List.mem_cons_self _ _)
    have hcs : '.' ∉ cs := fun hm => h (List.mem_cons_of_mem _ hm)
    simp only [List.cons_append, splitDots, if_neg hc, List.append_eq]
    rw [ih ys hcs]

theorem splitDots_oidText : ∀ x : List Nat, x ≠ [] → splitDots (oidText x) = x.map natDigits := by
  intro x
  induction x with
  | nil => intro h; exact absurd rfl h
  | cons n t ih =>
    intro _
    cases ht : t with
    | nil =>
      rw [show oidText [n] = natDigits n from rfl,
        splitDots_dotfree (natDigits n) (dot_not_in_natDigits n)]
      rfl
    | cons m rest =>
      subst ht
      rw [oidText_cons n (m :: rest) (by simp),
        splitDots_append (natDigits n) _ (dot_not_in_natDigits n), ih (by simp)]
      rfl

theorem parseParts_map : ∀ x : List Nat, (∀ a ∈ x, a < 2 ^ 32) →
    parseParts (x.map natDigits) = some x := by
  intro x
  induction x with
  | nil => intro _; rfl
  | cons n t ih =>
    intro ha
    simp only [List.map_cons, parseParts,
      parseU32_natDigits n (ha n (List.mem_cons_self _ _)),
      ih (fun a hm => ha a (List.mem_cons_of_mem _ hm))]

theorem oidText_head_digit : ∀ (x : List Nat) (c : Char) (cs : List Char),
    oidText x = c :: cs → c.isDigit = true := by
  intro x c cs h
  cases x with
  | nil => cases h
  | cons n t =>
    cases t with
    | nil =>
      have h2 : natDigits n = c :: cs := h
      refine natDigits_isDigit n c ?_
      rw [h2]
      exact List.mem_cons_self _ _
    | cons m rest =>
      rw [oidText_cons n (m :: rest) (by simp)] at h
      cases hnd : natDigits n with
      | nil => exact absurd hnd (natDigits_ne_nil n)
      | cons d ds =>
        rw [hnd, List.cons_append] at h
        injection h with h1 _
        refine natDigits_isDigit n c ?_
        rw [hnd, ← h1]
        exact List.mem_cons_self _ _

theorem dropWhile_oidText (x : List Nat) :
    (oidText x).dropWhile (fun c => c == '.') = oidText x := by
  cases hot : oidText x with
  | nil => rfl
  | cons c cs =>
    have hd := oidText_head_digit x c cs hot
    have hc : (c == '.') = false := by
      simp only [beq_eq_false_iff_ne, ne_eq]
      intro hcd
      subst hcd
      simp [Char.isDigit] at hd
    simp [List.dropWhile_cons, hc]

/-- C5: round trip — for every valid OidPath `x` (non-empty, arcs in u32
range), parsing the canonical text of `x`, with or without one leading
separator, returns exactly `x`; rendering the parse result therefore
reproduces the text with the leading separator removed. -/
theorem c5_round_trip (x : List Nat) (hx : x ≠ []) (ha : ∀ a ∈ x, a < 2 ^ 32) :
    parse_oid (oidText x) = some x ∧ parse_oid ('.' :: oidText x) = some x ∧
      Option.map oidText (parse_oid ('.' :: oidText x)) = some (oidText x) := by
  have hxe : x.isEmpty = false := by
    cases x with
    | nil => exact absurd rfl hx
    | cons n t => rfl
  have hparse : parse_oid (oidText x) = some x := by
    simp only [parse_oid, dropWhile_oidText, splitDots_oidText x hx, parseParts_map x ha,
      oidFrom, hxe, Bool.false_eq_true, if_false]
  have hdot : parse_oid ('.' :: oidText x) = some x := by
    have : ('.' :: oidText x).dropWhile (fun c => c == '.') = oidText x := by
      simp only [List.dropWhile_cons]
      rw [if_pos (by rfl)]
      exact dropWhile_oidText x
    simp only [parse_oid, this, splitDots_oidText x hx, parseParts_map x ha,
      oidFrom, hxe, Bool.false_eq_true, if_false]
  exact ⟨hparse, hdot, by rw [hdot]; rfl⟩

/-- C5 witness: the round trip at the OidPath 1.3.6.1.2.1.1.1.0. -/
theorem c5_round_trip_witness :
    ([1, 3, 6, 1, 2, 1, 1, 1, 0] : List Nat) ≠ [] ∧
      (∀ a ∈ ([1, 3, 6, 1, 2, 1, 1, 1, 0] : List Nat), a < 2 ^ 32) ∧
      parse_oid (oidText [1, 3, 6, 1, 2, 1, 1, 1, 0]) = some [1, 3, 6, 1, 2, 1, 1, 1, 0] :=
  ⟨by decide, by decide,
    (c5_round_trip [1, 3, 6, 1, 2, 1, 1, 1, 0] (by decide) (by decide)).1⟩

theorem parseParts_none : ∀ ps : List (List Char),
    parseParts ps = none ↔ ∃ p ∈ ps, parseU32 p = none := by
  intro ps
  induction ps with
  | nil => simp [parseParts]
  | cons p rest ih =>
    cases hp : parseU32 p with
    | none =>
      simp only [parseParts, hp]
      exact iff_of_true (by trivial) ⟨p, List.mem_cons_self _ _, hp⟩
    | some v =>
      cases hr : parseParts rest with
      | none =>
        simp only [parseParts, hp, hr]
        constructor
        · intro _
          obtain ⟨q, hq, hqn⟩ := ih.mp hr
          exact ⟨q, List.mem_cons_of_mem _ hq, hqn⟩
        · intro _
          trivial
      | some vs =>
        simp only [parseParts, hp, hr]
        constructor
        · intro h
          cases h
        · rintro ⟨q, hq, hqn⟩
          rcases List.mem_cons.mp hq with hq1 | hq1
          · rw [hq1, hp] at hqn
            cases hqn
          · exact absurd (ih.mpr ⟨q, hq1, hqn⟩) (by rw [hr]; simp)

theorem parseParts_length : ∀ (ps : List (List Char)) (arcs : List Nat),
    parseParts ps = some arcs → arcs.length = ps.length := by
  intro ps
  induction ps with
  | nil =>
    intro arcs h
    injection h with h2
    rw [← h2]
    rfl
  | cons p rest ih =>
    intro arcs h
    simp only [parseParts] at h
    cases hp : parseU32 p with
    | none =>
      rw [hp] at h
      cases h
    | some v =>
      rw [hp] at h
      cases hr : parseParts rest with
      | none =>
        rw [hr] at h
        cases h
      | some vs =>
        rw [hr] at h
        injection h with h2
        rw [← h2]
        simp [ih vs hr]

/-- C6 counterexample: the code strips every leading separator, so an
input with two leading dots parses successfully instead of failing on an
empty component. -/
theorem c6_parse_failure_cx : parse_oid ['.', '.', '1', '.', '3'] = some [1, 3] := by
  decide

/-- C6 (amended): `parse_oid` strips all leading separators (not just
one), splits on the separator, and parses each component as a u32; it
fails exactly when some component after that stripping is not a valid
u32 numeral (empty, containing a non-digit beyond one optional leading
plus, or exceeding the u32 range); in particular 1.3.6.abc.1 and the
empty input fail. -/
theorem c6_parse_failure :
    (∀ s : List Char, parse_oid s = none ↔
        ∃ p ∈ splitDots (s.dropWhile (fun c => c == '.')), parseU32 p = none) ∧
      parse_oid ['1', '.', '3', '.', '6', '.', 'a', 'b', 'c', '.', '1'] = none ∧
      parse_oid [] = none := by
  refine ⟨?_, by decide, by decide⟩
  intro s
  simp only [parse_oid]
  cases h : parseParts (splitDots (s.dropWhile (fun c => c == '.'))) with
  | none =>
    simp only [true_iff]
    exact (parseParts_none _).mp h
  | some arcs =>
    have hlen := parseParts_length _ _ h
    have hne : arcs.isEmpty = false := by
      cases harcs : arcs with
      | nil =>
        exfalso
        rw [harcs] at hlen
        have := splitDots_ne_nil (s.dropWhile (fun c => c == '.'))
        cases hs : splitDots (s.dropWhile (fun c => c == '.')) with
        | nil => exact this hs
        | cons q qs =>
          rw [hs] at hlen
          simp at hlen
      | cons a t => rfl
    simp only [oidFrom, hne, Bool.false_eq_true, if_false]
    constructor
    · intro hcontra
      cases hcontra
    · rintro ⟨q, hq, hqn⟩
      exact absurd ((parseParts_none _).mpr ⟨q, hq, hqn⟩) (by rw [h]; simp)

/-! ## C8: MAC normalization -/

/-- C8 counterexample: a 13-byte input (a 12-hex-digit string with a
leading space, removed by the trim step) is none of the claim's four
shapes, yet `parse_mac` accepts it. -/
theorem c8_parse_mac_cx :
    parse_mac [32, 97, 97, 98, 98, 99, 99, 100, 100, 101, 101, 102, 102] =
        some ['a', 'a', ':', 'b', 'b', ':', 'c', 'c', ':', 'd', 'd', ':', 'e', 'e', ':', 'f', 'f'] ∧
      ([32, 97, 97, 98, 98, 99, 99, 100, 100, 101, 101, 102, 102] : List Nat).length = 13 := by
  constructor
  · decide
  · decide

/-- C8 (amended): on ASCII inputs, `parse_mac` succeeds exactly for: any
6-byte input, a trimmed 17-byte text with exactly five colons, a trimmed
17-byte text with exactly five dashes, or a trimmed 12-hex-digit text
with an optional leading 0x marker — and the claim's particular examples
normalize to the lowercase colon form, while the 2-byte input and
"not-a-mac" fail. -/
theorem c8_parse_mac_amended :
    (∀ bytes : List Nat, (∀ b ∈ bytes, b < 128) →
        ((parse_mac bytes).isSome = true ↔
          (bytes.length = 6 ∨
            ((trimChars (bytes.map (fun b => Char.ofNat b))).length = 17 ∧
              (trimChars (bytes.map (fun b => Char.ofNat b))).count ':' = 5) ∨
            ((trimChars (bytes.map (fun b => Char.ofNat b))).length = 17 ∧
              (trimChars (bytes.map (fun b => Char.ofNat b))).count '-' = 5) ∨
            ((strip0x (trimChars (bytes.map (fun b => Char.ofNat b)))).length = 12 ∧
              (strip0x (trimChars (bytes.map (fun b => Char.ofNat b)))).all isHexDigitChar = true)))) ∧
      parse_mac [0xaa, 0xbb, 0xcc, 0xdd, 0xee, 0xff] = some ("aa:bb:cc:dd:ee:ff".data) ∧
      parse_mac ("AA:BB:CC:DD:EE:FF".data.map (fun c => c.toNat)) = some ("aa:bb:cc:dd:ee:ff".data) ∧
      parse_mac ("AA-BB-CC-DD-EE-FF".data.map (fun c => c.toNat)) = some ("aa:bb:cc:dd:ee:ff".data) ∧
      parse_mac ("aabbccddeeff".data.map (fun c => c.toNat)) = some ("aa:bb:cc:dd:ee:ff".data) ∧
      parse_mac ("0xaabbccddeeff".data.map (fun c => c.toNat)) = some ("aa:bb:cc:dd:ee:ff".data) ∧
      parse_mac [1, 2] = none ∧
      parse_mac ("not-a-mac".data.map (fun c => c.toNat)) = none := by
  refine ⟨?_, by decide, by decide, by decide, by decide, by decide, by decide, by decide⟩
  intro bytes hb
  have hall : bytes.all (fun b => decide (b < 128)) = true :=
    List.all_eq_true.mpr (fun b hbm => decide_eq_true (hb b hbm))
  simp only [parse_mac, parseMacStr, hall, Bool.not_true, Bool.and_false, Bool.false_eq_true,
    if_false, if_true]
  by_cases h1 : ((trimChars (bytes.map (fun b => Char.ofNat b))).length == 17 &&
      (trimChars (bytes.map (fun b => Char.ofNat b))).count ':' == 5) = true
  · rw [if_pos h1]
    dsimp only
    rw [Bool.and_eq_true, beq_iff_eq, beq_iff_eq] at h1
    exact iff_of_true rfl (Or.inr (Or.inl h1))
  · rw [if_neg h1]
    by_cases h2 : ((trimChars (bytes.map (fun b => Char.ofNat b))).length == 17 &&
        (trimChars (bytes.map (fun b => Char.ofNat b))).count '-' == 5) = true
    · rw [if_pos h2]
      dsimp only
      rw [Bool.and_eq_true, beq_iff_eq, beq_iff_eq] at h2
      exact iff_of_true rfl (Or.inr (Or.inr (Or.inl h2)))
    · rw [if_neg h2]
      by_cases h3 : ((strip0x (trimChars (bytes.map (fun b => Char.ofNat b)))).length == 12 &&
          (strip0x (trimChars (bytes.map (fun b => Char.ofNat b)))).all isHexDigitChar) = true
      · rw [if_pos h3]
        dsimp only
        rw [Bool.and_eq_true, beq_iff_eq] at h3
        exact iff_of_true rfl (Or.inr (Or.inr (Or.inr h3)))
      · rw [if_neg h3]
        dsimp only
        by_cases h6 : (bytes.length == 6) = true
        · rw [if_pos h6]
          exact iff_of_true rfl (Or.inl (by simpa using h6))
        · rw [if_neg h6]
          apply iff_of_false
          · simp
          · rintro (hL | hL | hL | hL)
            · exact h6 (by simpa using hL)
            · exact h1 (by simp [hL.1, hL.2])
            · exact h2 (by simp [hL.1, hL.2])
            · exact h3 (by simp [hL.1, hL.2])

/-- C8 witness: the amended characterization applied to the hex-string
input aabbccddeeff. -/
theorem c8_parse_mac_amended_witness :
    (∀ b ∈ ("aabbccddeeff".data.map (fun c => c.toNat) : List Nat), b < 128) ∧
      (parse_mac ("aabbccddeeff".data.map (fun c => c.toNat))).isSome = true :=
  ⟨by decide, (c8_parse_mac_amended.1 ("aabbccddeeff".data.map (fun c => c.toNat))
      (by decide)).mpr (by decide)⟩

end Snmp2
